import Mathlib

/-!
Verification of the layout and timeline composition engine of the Kombucha
content-generation repository.  The Python code of `src/image_processor.py`,
`src/video_processor.py` and `src/content_generator.py` is shallowly embedded
below: strings become `List Char`, pixel measurements become integers,
durations become rationals, and the external font-metrics provider (PIL's
`draw.textbbox`) becomes an explicit width-measure parameter.
-/

set_option autoImplicit false
set_option maxRecDepth 8000

/-- Whitespace test used by Python's `str.split()` / `str.strip()` and the
`\s` regex class (restricted to the ASCII whitespace actually occurring in
the repository's text inputs). -/
def pyIsSpace (c : Char) : Bool :=
  c == ' ' || c == '\t' || c == '\n' || c == '\r'

/-- Helper for `pySplit`: scans the characters, accumulating the current
word in reverse. -/
def pySplitAux : List Char → List Char → List (List Char)
  | [], acc => if acc = [] then [] else [acc.reverse]
  | c :: rest, acc =>
    if pyIsSpace c then
      if acc = [] then pySplitAux rest []
      else acc.reverse :: pySplitAux rest []
    else pySplitAux rest (c :: acc)

/-- Python `s.split()`: split on runs of whitespace, dropping empty pieces. -/
def pySplit (s : List Char) : List (List Char) :=
  pySplitAux s []

/-- Python `' '.join(words)`. -/
def joinWords : List (List Char) → List Char
  | [] => []
  | [w] => w
  | w :: ws => w ++ ' ' :: joinWords ws

/-- Python `s.strip()`: remove leading and trailing whitespace. -/
def pyStrip (s : List Char) : List Char :=
  ((s.dropWhile pyIsSpace).reverse.dropWhile pyIsSpace).reverse

example : pySplit "  a bc  d ".toList = ["a".toList, "bc".toList, "d".toList] := by decide
example : joinWords ["a".toList, "bc".toList] = "a bc".toList := by decide
example : pyStrip "  ab ".toList = "ab".toList := by decide
example : pyStrip "   ".toList = [] := by decide

/-! ### The sentence/clause splitting pipeline of `create_text_overlay`
(`src/image_processor.py`, lines 184-234). -/

theorem length_dropWhile_le' (p : Char → Bool) (l : List Char) :
    (l.dropWhile p).length ≤ l.length := by
  induction l with
  | nil => simp [List.dropWhile]
  | cons c rest ih =>
    by_cases h : p c
    · simp [List.dropWhile, h]; omega
    · simp [List.dropWhile, h]

/-- `re.split(r'(,\s*)', text)`: the pieces of `text` between matches of a
comma followed by optional whitespace, alternating with the (captured)
separators themselves.  `inSep` is true while the greedy `\s*` run after a
comma is being consumed; `sep` and `acc` hold the current separator and
piece, reversed. -/
def commaSplitGo : Bool → List Char → List Char → List Char → List (List Char)
  | false, _, acc, [] => [acc.reverse]
  | false, _, acc, c :: rest =>
    if c = ',' then commaSplitGo true [c] acc rest
    else commaSplitGo false [] (c :: acc) rest
  | true, sep, acc, [] => [acc.reverse, sep.reverse, []]
  | true, sep, acc, c :: rest =>
    if pyIsSpace c then commaSplitGo true (c :: sep) acc rest
    else if c = ',' then acc.reverse :: sep.reverse :: commaSplitGo true [c] [] rest
    else acc.reverse :: sep.reverse :: commaSplitGo false [] [c] rest

def commaSplit (text : List Char) : List (List Char) :=
  commaSplitGo false [] [] text

/-- The recombination loop run after both `re.split` calls: concatenate each
piece with the separator that follows it (`for i in range(0, len(s)-1, 2)`),
keeping a trailing piece as-is when the list has odd length. -/
def pairConcat : List (List Char) → List (List Char)
  | [] => []
  | [a] => [a]
  | a :: b :: rest => (a ++ b) :: pairConcat rest

/-- Sentence terminators of the regex class `[.!?]`. -/
def isTerm (c : Char) : Bool :=
  c == '.' || c == '!' || c == '?'

/-- `re.findall(r'([^.!?]+[.!?]+(?:\s+|$))', part)`: every non-overlapping
leftmost match of a nonempty run of non-terminators, then a nonempty run of
terminators, then whitespace or the end of the string.  The scan keeps the
pending non-terminator run in `aRev` and the pending terminator run in
`pRev`; `mode` is 0 while reading non-terminators, 1 while reading
terminators, 2 while reading the trailing whitespace.  A match attempt that
meets a non-whitespace character right after the terminator run fails, and
the regex engine cannot match again before that character, so the scan
resumes there with the pending runs discarded. -/
def findSentGo (mode : ℕ) (aRev pRev wRev : List Char) :
    List Char → List (List Char)
  | [] =>
    if mode = 0 then []
    else if mode = 1 then [aRev.reverse ++ pRev.reverse]
    else [aRev.reverse ++ pRev.reverse ++ wRev.reverse]
  | c :: rest =>
    if mode = 0 then
      if isTerm c then
        if aRev = [] then findSentGo 0 [] [] [] rest
        else findSentGo 1 aRev [c] [] rest
      else findSentGo 0 (c :: aRev) [] [] rest
    else if mode = 1 then
      if isTerm c then findSentGo 1 aRev (c :: pRev) [] rest
      else if pyIsSpace c then findSentGo 2 aRev pRev [c] rest
      else findSentGo 0 [c] [] [] rest
    else
      if pyIsSpace c then findSentGo 2 aRev pRev (c :: wRev) rest
      else
        (aRev.reverse ++ pRev.reverse ++ wRev.reverse) ::
          (if isTerm c then findSentGo 0 [] [] [] rest
           else findSentGo 0 [c] [] [] rest)

def findSentences (s : List Char) : List (List Char) :=
  findSentGo 0 [] [] [] s

/-- `re.split(r'(\.\s+)', part)`: like `commaSplit` but the separator is a
period followed by at least one whitespace character.  `mode` is 0 in plain
text, 1 right after a period whose following character is not yet known,
2 inside the whitespace run of a confirmed separator. -/
def periodSplitGo (mode : ℕ) (sep acc : List Char) :
    List Char → List (List Char)
  | [] =>
    if mode = 0 then [acc.reverse]
    else if mode = 1 then [('.' :: acc).reverse]
    else [acc.reverse, sep.reverse, []]
  | c :: rest =>
    if mode = 0 then
      if c = '.' then periodSplitGo 1 ['.'] acc rest
      else periodSplitGo 0 [] (c :: acc) rest
    else if mode = 1 then
      if pyIsSpace c then periodSplitGo 2 (c :: sep) acc rest
      else if c = '.' then periodSplitGo 1 ['.'] ('.' :: acc) rest
      else periodSplitGo 0 [] (c :: '.' :: acc) rest
    else
      if pyIsSpace c then periodSplitGo 2 (c :: sep) acc rest
      else if c = '.' then acc.reverse :: sep.reverse :: periodSplitGo 1 ['.'] [] rest
      else acc.reverse :: sep.reverse :: periodSplitGo 0 [] [c] rest

def periodSplit (text : List Char) : List (List Char) :=
  periodSplitGo 0 [] [] text

/-- The per-part processing of `create_text_overlay` (lines 202-224): try the
sentence regex; otherwise keep parts that already end with a period;
otherwise split on period-plus-space boundaries, keeping non-blank pieces. -/
def partSentences (part : List Char) : List (List Char) :=
  let sentences := findSentences part
  if sentences ≠ [] then sentences
  else if (pyStrip part).getLast? = some '.' then [part]
  else ((pairConcat (periodSplit part)).filter (fun c => pyStrip c ≠ []))

/-- Lines 184-234 of `create_text_overlay`: the list of semantic chunks that
the wrapping loop receives.  Splits on comma boundaries, then sentence
boundaries, strips each piece, drops blanks, and falls back to the whole
text when nothing survives. -/
def splitParts (text : List Char) : List (List Char) :=
  let commaParts := pairConcat (commaSplit text)
  let allParts := commaParts.flatMap partSentences
  let stripped := (allParts.map pyStrip).filter (fun s => s ≠ [])
  if stripped = [] then [text] else stripped

example : splitParts "Hi".toList = ["Hi".toList] := by decide
example : splitParts [] = [[]] := by decide
example : splitParts "One. Two!".toList = ["One.".toList, "Two!".toList] := by decide
example : splitParts "a, b".toList = ["a,".toList, "b".toList] := by decide

/-! ### The greedy pixel-width wrapping loop of `create_text_overlay`
(lines 243-296).  `W` is the font-metrics width measure
`draw.textbbox((0, 0), s, font)[2] - draw.textbbox((0, 0), s, font)[0]`,
supplied by the external font provider and kept as a parameter. -/

/-- One iteration of the character loop of lines 275-284: extend
`temp_word` (`st.2`) when the extension still fits, otherwise emit the
pending fragment and restart from the current character. -/
def charBreakStep (W : List Char → ℤ) (safe : ℤ)
    (st : List (List Char) × List Char) (c : Char) :
    List (List Char) × List Char :=
  let test := st.2 ++ [c]
  if W test ≤ safe then (st.1, test)
  else (st.1 ++ (if st.2 = [] then [] else [st.2]), [c])

/-- Lines 273-288: break a word that alone exceeds the safe width into
character-level fragments.  Returns the fragments emitted so far together
with the trailing fragment `temp_word` (possibly empty). -/
def charBreak (W : List Char → ℤ) (safe : ℤ) (word : List Char) :
    List (List Char) × List Char :=
  word.foldl (charBreakStep W safe) ([], [])

/-- State of the wrapping loop: the emitted `wrapped_lines` and the words of
the pending `current_line`. -/
structure WrapSt where
  wrapped : List (List Char)
  current : List (List Char)
deriving DecidableEq

/-- Lines 251-292: the body of `for word in words`. -/
def processWord (W : List Char → ℤ) (safe : ℤ) (st : WrapSt)
    (word : List Char) : WrapSt :=
  let test := joinWords (st.current ++ [word])
  if W test ≤ safe then { st with current := st.current ++ [word] }
  else
    let wr := st.wrapped ++ (if st.current = [] then [] else [joinWords st.current])
    if word = [] then { wrapped := wr, current := [] }
    else if safe < W word then
      let br := charBreak W safe word
      { wrapped := wr ++ br.1,
        current := if br.2 = [] then [] else [br.2] }
    else { wrapped := wr, current := [word] }

/-- Lines 243-296: wrap one sentence, appending to the already-wrapped
lines.  `current_line` starts empty and is flushed at the end. -/
def processSentence (W : List Char → ℤ) (safe : ℤ)
    (wrapped : List (List Char)) (sentence : List Char) : List (List Char) :=
  let words := pySplit sentence
  if words = [] then wrapped
  else
    let st := words.foldl (processWord W safe) ⟨wrapped, []⟩
    st.wrapped ++ (if st.current = [] then [] else [joinWords st.current])

/-- The full wrapping pass over all sentences; the safe width is
`max_width - 20` (line 254). -/
def wrapLines (W : List Char → ℤ) (maxWidth : ℤ)
    (sentences : List (List Char)) : List (List Char) :=
  sentences.foldl (processSentence W (maxWidth - 20)) []

/-- Lines 298-331: the verification pass.  A line still wider than
`max_width - 30` is split at its midpoint word boundary when it has more
than one word, and kept as-is otherwise. -/
def verifyLine (W : List Char → ℤ) (maxWidth : ℤ) (line : List Char) :
    List (List Char) :=
  if maxWidth - 30 < W line then
    let ws := pySplit line
    if 1 < ws.length then
      [joinWords (ws.take (ws.length / 2)), joinWords (ws.drop (ws.length / 2))]
    else [line]
  else [line]

/-- The lines produced by the text-fitting portion of `create_text_overlay`
(splitting, greedy wrapping, verification). -/
def fitLines (W : List Char → ℤ) (maxWidth : ℤ) (text : List Char) :
    List (List Char) :=
  (wrapLines W maxWidth (splitParts text)).flatMap (verifyLine W maxWidth)

/-- Line 333: `total_height = sum(line_heights) + (len(wrapped_lines) - 1) * 10`
with `H` the per-line bounding-box height measure. -/
def totalHeight (H : List Char → ℤ) (lines : List (List Char)) : ℤ :=
  (lines.map H).sum + ((lines.length : ℤ) - 1) * 10

/-- A simple concrete width measure for evaluation: seven pixels per
character. -/
def wFixed (s : List Char) : ℤ := 7 * s.length

/-! ### The draw-time bounds checks of `create_text_overlay`
(lines 373-447), which may truncate a line and append an ellipsis. -/

/-- Lines 404-415: the longest prefix each of whose extensions measured so
far fits in `avail` with the 10px margin; the loop stops at the first
failing character. -/
def truncFit (W : List Char → ℤ) (avail : ℤ) : List Char → List Char → List Char
  | acc, [] => acc
  | acc, c :: rest =>
    if W (acc ++ [c]) + 10 ≤ avail then truncFit W avail (acc ++ [c]) rest
    else acc

/-- Lines 381-445: the per-line draw-time adjustment.  Returns the text
actually drawn and its x position.  Integer division is Python's floor
division. -/
def drawnLine (W : List Char → ℤ) (imgW padding : ℤ) (line0 : List Char) :
    List Char × ℤ :=
  let minx := padding + 50
  let maxx := imgW - padding - 50
  let lw0 := W line0
  let x0 := Int.fdiv (imgW - (lw0 + 10)) 2
  let x1 := if x0 < minx then minx else x0
  let step1 : List Char × ℤ × ℤ :=
    if maxx < x1 + (lw0 + 10) then
      let xa := maxx - (lw0 + 10)
      if xa < minx then
        let avail := maxx - minx - 20
        if avail < lw0 then
          let fitting := truncFit W avail [] line0
          let line1 :=
            if fitting.length < line0.length then fitting ++ ['.', '.', '.']
            else fitting
          (line1, W line1, minx)
        else (line0, lw0, minx)
      else (line0, lw0, xa)
    else (line0, lw0, x1)
  let line1 := step1.1
  let lw1 := step1.2.1
  let x2 := step1.2.2
  let amin : ℤ := 50
  let amax := imgW - 50
  let x3 := if x2 < amin then amin else x2
  if amax < x3 + (lw1 + 10) then
    let xb := amax - (lw1 + 10)
    if xb < amin then
      let avail2 := amax - amin - 20
      if avail2 < lw1 then
        let half := line1.take (line1.length / 2)
        if W half + 10 ≤ avail2 then (half ++ ['.', '.', '.'], amin)
        else (line1, amin)
      else (line1, amin)
    else (line1, xb)
  else (line1, x3)

/-- The lines as finally drawn by `create_text_overlay`: the fitted lines
after the draw-time adjustment. -/
def drawnLines (W : List Char → ℤ) (imgW padding maxWidth : ℤ)
    (text : List Char) : List (List Char) :=
  (fitLines W maxWidth text).map (fun l => (drawnLine W imgW padding l).1)

/-- Lines 335-341: the vertical origin of the text block from the anchor
string; any string other than top or center falls through to the bottom
branch. -/
def yStartOf (position : String) (imgH totalH padding : ℤ) : ℤ :=
  if position = "top" then padding
  else if position = "center" then Int.fdiv (imgH - totalH) 2
  else imgH - totalH - padding

/-! ### `calculate_text_duration` (`src/video_processor.py`, lines 101-134)
and the `textwrap.wrap` line counting it consults. -/

/-- Helper for `chunksOf`: collects characters into the reversed open chunk
`acc`, closing it whenever it reaches `width` characters. -/
def chunksGo (width : ℕ) (acc : List Char) : List Char → List (List Char)
  | [] => if acc = [] then [] else [acc.reverse]
  | c :: rest =>
    if acc.length + 1 ≤ width then chunksGo width (c :: acc) rest
    else acc.reverse :: chunksGo width [c] rest

/-- Break one overlong word into `width`-sized pieces (a model of
`textwrap`'s `break_long_words` handling). -/
def chunksOf (width : ℕ) (l : List Char) : List (List Char) :=
  if width = 0 ∨ l.length ≤ width then [l] else chunksGo width [] l

/-- Greedy fill of word chunks into lines of at most `width` characters;
`cur` is the length of the open line, 0 when no line is open. -/
def greedyCount (width : ℕ) : List (List Char) → ℕ → ℕ
  | [], cur => if cur = 0 then 0 else 1
  | w :: ws, cur =>
    if cur = 0 then greedyCount width ws w.length
    else if cur + 1 + w.length ≤ width then greedyCount width ws (cur + 1 + w.length)
    else 1 + greedyCount width ws w.length

/-- Model of Python's `textwrap.wrap(text, width)` line count: whitespace-
separated words greedily packed into lines of at most `width` characters,
overlong words broken into `width`-sized pieces.  All-whitespace text
yields zero lines. -/
def wrapCount (width : ℕ) (text : List Char) : ℕ :=
  greedyCount width ((pySplit text).flatMap (chunksOf width)) 0

example : wrapCount 30 "hello world".toList = 1 := by decide
example : wrapCount 5 "hello world".toList = 2 := by decide
example : wrapCount 30 (List.replicate 40 ' ') = 0 := by decide

/-- `calculate_text_duration` (lines 101-134): reading-speed heuristic with
the extra-line bonus added only when the wrapped line count exceeds one,
clamped between `minD` and `maxD`. -/
def calculate_text_duration (text : List Char) (minD maxD : ℚ) : ℚ :=
  let words : ℚ := (pySplit text).length
  let chars : ℚ := text.length
  let calculated := max (words / (5 / 2)) (chars / 100)
  let numLines := wrapCount 30 text
  let withLines :=
    if 1 < numLines then calculated + ((numLines : ℚ) - 1) * (1 / 2)
    else calculated
  max minD (min withLines maxD)

/-- The closed form asserted by the claim for `calculate_text_duration`:
the `0.5·(wrappedLineCount − 1)` term is applied unconditionally. -/
def claimedTextDuration (text : List Char) (minD maxD : ℚ) : ℚ :=
  let words : ℚ := (pySplit text).length
  let chars : ℚ := text.length
  let base := max (words / (5 / 2)) (chars / 100)
  max minD (min (base + ((wrapCount 30 text : ℚ) - 1) * (1 / 2)) maxD)

example : calculate_text_duration "hello world".toList 3 10 = 3 := by
  have h1 : (pySplit "hello world".toList).length = 2 := by decide
  have h2 : ("hello world".toList).length = 11 := by decide
  have h3 : wrapCount 30 "hello world".toList = 1 := by decide
  simp only [calculate_text_duration, h1, h2, h3]
  norm_num [max_def, min_def]

/-! ### Timeline composition (`src/video_processor.py`). -/

/-- The clip-duration allocation loop of `create_reel` (lines 302-324).
`current` is `current_time`; each placed clip requests
`min(remaining / remaining_count, 10)` seconds and `prepare_clip` trims the
request to the source clip's own duration.  `rest.length + 1` is
`len(video_paths) - i`, the number of clips not yet placed. -/
def allocClips (maxD transition : ℚ) : List ℚ → ℚ → List ℚ
  | [], _ => []
  | src :: rest, current =>
    let remaining := maxD - current
    if remaining ≤ 0 then []
    else
      let d := min (remaining / (rest.length + 1)) 10
      min d src :: allocClips maxD transition rest (current + d - transition)

/-- The same loop, recording the requested (`clip_duration`) values rather
than the source-trimmed ones. -/
def allocRequested (maxD transition : ℚ) : List ℚ → ℚ → List ℚ
  | [], _ => []
  | _ :: rest, current =>
    let remaining := maxD - current
    if remaining ≤ 0 then []
    else
      let d := min (remaining / (rest.length + 1)) 10
      d :: allocRequested maxD transition rest (current + d - transition)

/-- The claim's description of the allocation, phrased over the remaining
budget: at each step the budget is divided evenly over the not-yet-placed
segments and capped. -/
def specAlloc (transition cap : ℚ) : ℕ → ℚ → List ℚ
  | 0, _ => []
  | n + 1, budget =>
    if budget ≤ 0 then []
    else
      let d := min (budget / (n + 1)) cap
      d :: specAlloc transition cap n (budget - d + transition)

/-- Lines 332-345 (identical in `create_combined_reel`, lines 613-625):
loop the composed sequence when it is shorter than `minD` and trim to
exactly `minD`; trim to exactly `maxD` when longer.  `subclip(0, t)` keeps
`min t` of the available footage. -/
def composeDuration (minD maxD d : ℚ) : ℚ :=
  let d1 :=
    if d < minD then
      let loops := ⌊minD / d⌋ + 1
      min minD ((loops : ℚ) * d)
    else d
  if maxD < d1 then maxD else d1

/-- Errors a composition call can end in: the explicit
`ValueError("At least one video path is required")` guard of `create_reel`,
and the `IndexError` from `clips[0]` when no clip was assembled. -/
inductive ComposeError
  | emptyInput
  | indexError
deriving DecidableEq

/-- `create_reel` (lines 277-345), reduced to the total duration it
composes: validate non-emptiness, allocate, concatenate (duration is the
sum), then enforce the min/max bounds. -/
def create_reel_compose (srcDurs : List ℚ) (minD maxD transition : ℚ) :
    Except ComposeError ℚ :=
  if srcDurs = [] then .error .emptyInput
  else
    match allocClips maxD transition srcDurs 0 with
    | [] => .error .indexError
    | clips => .ok (composeDuration minD maxD clips.sum)

/-- `create_combined_reel` (lines 548-625), reduced to the total duration:
each video is trimmed to `videoDur` (or kept whole when `videoDur` is 0,
`prepare_clip`'s falsy check), each image gets exactly `imageDur`; there is
no empty-input validation, so `clips[0]` raises `IndexError` when both
lists are empty. -/
def create_combined_compose (videoDurs imageDurs : List ℚ)
    (minD maxD videoDur imageDur : ℚ) : Except ComposeError ℚ :=
  match videoDurs.map (fun s => if videoDur = 0 then s else min videoDur s)
      ++ imageDurs.map (fun _ => imageDur) with
  | [] => .error .indexError
  | clips => .ok (composeDuration minD maxD clips.sum)

/-! ### Overlay scheduling in `create_combined_reel` (lines 630-668). -/

/-- Lines 631-646: the quote overlay's `(start_time, duration)`.  The
heuristic ceiling is `min(10.0, t * 0.4)`; the start is 10% into the
timeline; an overrunning overlay is shrunk to `t - start - 0.5` but never
below the 3-second floor. -/
def quoteSchedule (t : ℚ) (quoteText : List Char) : ℚ × ℚ :=
  let d0 := calculate_text_duration quoteText 3 (min 10 (t * (2 / 5)))
  let start := t * (1 / 10)
  let d := if t < start + d0 then max 3 (t - start - 1 / 2) else d0
  (start, d)

/-- Lines 650-668: the health-benefit overlay, after newline cleanup; the
ceiling is `min(12.0, t * 0.5)` and the start is 50% into the timeline. -/
def benefitSchedule (t : ℚ) (benefitText : List Char) : ℚ × ℚ :=
  let clean := pyStrip (benefitText.map (fun c => if c = '\n' then ' ' else c))
  let d0 := calculate_text_duration clean 3 (min 12 (t * (1 / 2)))
  let start := t * (1 / 2)
  let d := if t < start + d0 then max 3 (t - start - 1 / 2) else d0
  (start, d)

/-! ### Asset rotation (`src/content_generator.py`, lines 134-180). -/

/-- `_select_unused_asset`, up to the final `random.choice`: `none` when the
pool is empty; otherwise the list the choice is made from, paired with the
pool-exhausted flag (true exactly when the warning is printed and the whole
pool is reused). -/
def selectCandidates {α : Type} [DecidableEq α] (pool used : List α) :
    Option (List α × Bool) :=
  if pool = [] then none
  else
    let unused := pool.filter (fun a => ¬ a ∈ used)
    if unused = [] then some (pool, true) else some (unused, false)

example : selectCandidates [1, 2, 3] [1] = some ([2, 3], false) := by decide
example : selectCandidates [1, 2, 3] [3, 1, 2] = some ([1, 2, 3], true) := by decide

/-! ### Invariant predicates used to verify the wrapping pass. -/

/-- A well-formed word: nonempty and whitespace-free, as `pySplit`
produces. -/
def WfWord (w : List Char) : Prop :=
  w ≠ [] ∧ ∀ c ∈ w, pyIsSpace c = false

/-- A line assembled by the wrapper: the space-join of a nonempty list of
well-formed words (character fragments of a broken word count as words). -/
def WfJoin (l : List Char) : Prop :=
  ∃ ws, ws ≠ [] ∧ (∀ w ∈ ws, WfWord w) ∧ l = joinWords ws

/-- The wrap invariant for an emitted line: well-formed, and either within
the safe width or a single character (an unbreakable overlong glyph). -/
def LineOK (W : List Char → ℤ) (safe : ℤ) (l : List Char) : Prop :=
  WfJoin l ∧ (W l ≤ safe ∨ l.length = 1)

/-- The invariant for a character fragment produced by `charBreak`. -/
def FragOK (W : List Char → ℤ) (safe : ℤ) (f : List Char) : Prop :=
  f ≠ [] ∧ (∀ c ∈ f, pyIsSpace c = false) ∧ (W f ≤ safe ∨ f.length = 1)

/-- The invariant for the pending `current_line`: empty, or made of
well-formed words whose join was validated against the safe width (except
for a lone unbreakable character). -/
def CurOK (W : List Char → ℤ) (safe : ℤ) (cur : List (List Char)) : Prop :=
  cur = [] ∨ ((∀ w ∈ cur, WfWord w) ∧
    (W (joinWords cur) ≤ safe ∨ ∃ c, cur = [[c]]))

/-- The invariant for the whole wrap state. -/
def StOK (W : List Char → ℤ) (safe : ℤ) (st : WrapSt) : Prop :=
  (∀ l ∈ st.wrapped, LineOK W safe l) ∧ CurOK W safe st.current

/-! ## Theorems -/

/-! ### C6: fitting the empty string -/

/-- C6 counterexample: for the empty text the fitter does produce zero
lines, but the computed block height is `(0 - 1) * 10 = -10`, not the zero
height the claim asserts. -/
theorem empty_text_nonzero_height_cex :
    fitLines wFixed 500 [] = [] ∧
      totalHeight wFixed (fitLines wFixed 500 []) = -10 ∧
      totalHeight wFixed (fitLines wFixed 500 []) ≠ 0 := by
  refine ⟨by decide, by decide, by decide⟩

/-- C6 amended: for every width measure, height measure and maximum width,
fitting the empty string yields zero wrapped lines and a total block height
of `-10` (the inter-line spacing formula applied to an empty line list);
the computation is total, so it never raises. -/
theorem empty_text_fit_empty_and_height (W H : List Char → ℤ) (maxWidth : ℤ) :
    fitLines W maxWidth [] = [] ∧ totalHeight H (fitLines W maxWidth []) = -10 := by
  have hfit : fitLines W maxWidth [] = [] := rfl
  exact ⟨hfit, by rw [hfit]; rfl⟩

/-! ### C8: composing with zero segments -/

/-- C8 counterexample: `create_combined_reel` given no videos and no images
does not raise the `EmptyInput` usage error; it crashes with the
`IndexError` from `clips[0]`. -/
theorem combined_reel_empty_crashes_cex :
    create_combined_compose [] [] 15 90 5 3 = .error .indexError ∧
      create_combined_compose [] [] 15 90 5 3 ≠ .error .emptyInput := by
  refine ⟨rfl, ?_⟩
  intro h
  have heq : (Except.error ComposeError.indexError : Except ComposeError ℚ) =
      Except.error ComposeError.emptyInput := by
    calc Except.error ComposeError.indexError
        = create_combined_compose [] [] 15 90 5 3 := rfl
      _ = Except.error ComposeError.emptyInput := h
  exact absurd (Except.error.inj heq) (by decide)

/-- C8 amended: `create_reel` raises the `EmptyInput` usage error
immediately on an empty segment list for every configuration, while
`create_combined_reel` performs no such validation and fails with an
`IndexError` when both its video and image lists are empty. -/
theorem empty_segment_error_behavior (minD maxD transition videoDur imageDur : ℚ) :
    create_reel_compose [] minD maxD transition = .error .emptyInput ∧
      create_combined_compose [] [] minD maxD videoDur imageDur = .error .indexError :=
  ⟨rfl, rfl⟩

/-! ### C9: vertical anchoring -/

/-- C9 counterexample: the vertical origin is not clamped: a 300px-tall
block centered on a 100px-tall canvas gets origin `-100`, extending past
the top edge. -/
theorem center_anchor_unclamped_cex :
    yStartOf "center" 100 300 40 = -100 ∧ yStartOf "center" 100 300 40 < 0 := by
  exact ⟨by decide, by decide⟩

/-- C9 amended: the origin is exactly `padding` for top,
`⌊(h − blockH)/2⌋` for center and `h − blockH − padding` otherwise, with no
clamping; whenever the block plus padding fits in the canvas
(`blockH + 2·padding ≤ h`) the block stays inside `[0, h]`, but nothing
constrains it otherwise. -/
theorem anchor_origin_formulas_in_bounds (position : String)
    (imgH totalH padding : ℤ) (h0 : 0 ≤ totalH) (h1 : 0 ≤ padding)
    (h2 : totalH + 2 * padding ≤ imgH) :
    0 ≤ yStartOf position imgH totalH padding ∧
      yStartOf position imgH totalH padding + totalH ≤ imgH := by
  unfold yStartOf
  split_ifs with ht hc
  · constructor <;> omega
  · rw [Int.fdiv_eq_ediv _ (by omega : (0:ℤ) ≤ 2)]
    constructor <;> omega
  · constructor <;> omega

/-- C9 witness: a 100px block with 40px padding on a 300px canvas anchored
at the bottom starts at 160 and ends at 260, inside the canvas. -/
theorem anchor_origin_formulas_in_bounds_witness :
    0 ≤ yStartOf "bottom" 300 100 40 ∧ yStartOf "bottom" 300 100 40 + 100 ≤ 300 :=
  anchor_origin_formulas_in_bounds "bottom" 300 100 40 (by decide) (by decide)
    (by decide)

/-! ### C2: composed duration within bounds -/

theorem composeDuration_bounds (minD maxD d : ℚ) (hd : 0 < d) (hmin : 0 < minD)
    (hle : minD ≤ maxD) :
    minD ≤ composeDuration minD maxD d ∧ composeDuration minD maxD d ≤ maxD := by
  unfold composeDuration
  by_cases hlt : d < minD
  · have hfl : minD ≤ ((⌊minD / d⌋ + 1 : ℤ) : ℚ) * d := by
      have h1 : minD / d < (⌊minD / d⌋ : ℚ) + 1 := Int.lt_floor_add_one _
      have h2 : minD / d * d = minD := div_mul_cancel₀ minD (ne_of_gt hd)
      have h3 : minD / d * d < ((⌊minD / d⌋ : ℚ) + 1) * d :=
        mul_lt_mul_of_pos_right h1 hd
      rw [h2] at h3
      push_cast
      linarith
    have hmin' : min minD ((((⌊minD / d⌋ + 1 : ℤ)) : ℚ) * d) = minD :=
      min_eq_left hfl
    simp only [if_pos hlt]
    rw [hmin']
    rw [if_neg (not_lt.mpr hle)]
    exact ⟨le_refl _, hle⟩
  · simp only [if_neg hlt]
    push_neg at hlt
    by_cases hmax : maxD < d
    · rw [if_pos hmax]
      exact ⟨hle, le_refl _⟩
    · rw [if_neg hmax]
      push_neg at hmax
      exact ⟨hlt, hmax⟩

theorem allocClips_all_pos (maxD transition : ℚ) :
    ∀ (srcs : List ℚ) (current : ℚ), (∀ s ∈ srcs, 0 < s) →
      ∀ x ∈ allocClips maxD transition srcs current, 0 < x := by
  intro srcs
  induction srcs with
  | nil => intro current _ x hx; simp [allocClips] at hx
  | cons src rest ih =>
    intro current hpos x hx
    unfold allocClips at hx
    by_cases hrem : maxD - current ≤ 0
    · rw [if_pos hrem] at hx
      simp at hx
    · rw [if_neg hrem] at hx
      push_neg at hrem
      rcases List.mem_cons.mp hx with heq | hmem
      · subst heq
        have hq : (0 : ℚ) < (maxD - current) / ((rest.length : ℚ) + 1) := by
          apply div_pos (by linarith)
          positivity
        have hd : (0 : ℚ) < min ((maxD - current) / ((rest.length : ℚ) + 1)) 10 :=
          lt_min hq (by norm_num)
        exact lt_min hd (hpos src (List.mem_cons_self _ _))
      · exact ih _ (fun s hs => hpos s (List.mem_cons_of_mem _ hs)) x hmem

theorem allocClips_ne_nil (maxD transition : ℚ) (src : ℚ) (rest : List ℚ)
    (hmax : 0 < maxD) :
    allocClips maxD transition (src :: rest) 0 ≠ [] := by
  unfold allocClips
  rw [if_neg (by simpa using hmax)]
  simp

/-- C2: for any nonempty segment list with positive source durations and
any bounds `0 < minD ≤ maxD`, both `create_reel` and `create_combined_reel`
compose successfully and the final duration satisfies
`minD ≤ total ≤ maxD`: a short sequence is looped and trimmed to exactly
`minD` and a long one is trimmed to exactly `maxD`. -/
theorem timeline_duration_within_bounds :
    (∀ (srcs : List ℚ) (minD maxD transition : ℚ), srcs ≠ [] →
      (∀ s ∈ srcs, 0 < s) → 0 < minD → minD ≤ maxD →
      ∃ d, create_reel_compose srcs minD maxD transition = .ok d ∧
        minD ≤ d ∧ d ≤ maxD) ∧
    (∀ (videoDurs imageDurs : List ℚ) (minD maxD videoDur imageDur : ℚ),
      (videoDurs ≠ [] ∨ imageDurs ≠ []) → (∀ s ∈ videoDurs, 0 < s) →
      0 < videoDur → 0 < imageDur → 0 < minD → minD ≤ maxD →
      ∃ d, create_combined_compose videoDurs imageDurs minD maxD videoDur imageDur
          = .ok d ∧ minD ≤ d ∧ d ≤ maxD) := by
  constructor
  · intro srcs minD maxD transition hne hpos hmin hle
    cases srcs with
    | nil => exact absurd rfl hne
    | cons src rest =>
      have hclips : allocClips maxD transition (src :: rest) 0 ≠ [] :=
        allocClips_ne_nil maxD transition src rest (lt_of_lt_of_le hmin hle)
      have hcp : ∀ x ∈ allocClips maxD transition (src :: rest) 0, 0 < x :=
        allocClips_all_pos maxD transition (src :: rest) 0 hpos
      have hsum : 0 < (allocClips maxD transition (src :: rest) 0).sum :=
        List.sum_pos _ hcp hclips
      cases hc : allocClips maxD transition (src :: rest) 0 with
      | nil => exact absurd hc hclips
      | cons c cs =>
        rw [hc] at hsum
        refine ⟨composeDuration minD maxD (c :: cs).sum, ?_,
          composeDuration_bounds minD maxD _ hsum hmin hle⟩
        unfold create_reel_compose
        rw [if_neg (by simp), hc]
  · intro videoDurs imageDurs minD maxD videoDur imageDur hne hvpos hvd hid hmin hle
    have hcne : (videoDurs.map (fun s => if videoDur = 0 then s else min videoDur s)
        ++ imageDurs.map (fun _ => imageDur)) ≠ [] := by
      rcases hne with h | h
      · cases videoDurs with
        | nil => exact absurd rfl h
        | cons v vs => simp
      · intro habs
        rcases List.append_eq_nil.mp habs with ⟨_, h2⟩
        exact h (List.map_eq_nil_iff.mp h2)
    have hcp : ∀ x ∈ (videoDurs.map (fun s => if videoDur = 0 then s else min videoDur s)
        ++ imageDurs.map (fun _ => imageDur)), 0 < x := by
      intro x hx
      rcases List.mem_append.mp hx with hv | hi
      · rcases List.mem_map.mp hv with ⟨s, hs, heq⟩
        by_cases h0 : videoDur = 0
        · rw [if_pos h0] at heq
          exact heq ▸ hvpos s hs
        · rw [if_neg h0] at heq
          exact heq ▸ lt_min hvd (hvpos s hs)
      · rcases List.mem_map.mp hi with ⟨s, _, heq⟩
        exact heq ▸ hid
    have hsum := List.sum_pos _ hcp hcne
    cases hc : (videoDurs.map (fun s => if videoDur = 0 then s else min videoDur s)
        ++ imageDurs.map (fun _ => imageDur)) with
    | nil => exact absurd hc hcne
    | cons c cs =>
      rw [hc] at hsum
      refine ⟨composeDuration minD maxD (c :: cs).sum, ?_,
        composeDuration_bounds minD maxD _ hsum hmin hle⟩
      unfold create_combined_compose
      rw [hc]

/-- C2 witness: two 8-second source clips with bounds 15–20 compose to 16
seconds, which lies within the bounds. -/
theorem timeline_duration_within_bounds_witness :
    ∃ d, create_reel_compose [8, 8] 15 20 (1 / 2) = .ok d ∧
      (15 : ℚ) ≤ d ∧ d ≤ 20 :=
  timeline_duration_within_bounds.1 [8, 8] 15 20 (1 / 2) (by decide)
    (by intro s hs; fin_cases hs <;> norm_num) (by norm_num) (by norm_num)

/-! ### C7: even-split duration allocation with a 10-unit cap -/

theorem allocRequested_eq_specAlloc (maxD transition : ℚ) :
    ∀ (srcs : List ℚ) (current : ℚ),
      allocRequested maxD transition srcs current =
        specAlloc transition 10 srcs.length (maxD - current) := by
  intro srcs
  induction srcs with
  | nil => intro current; rfl
  | cons src rest ih =>
    intro current
    unfold allocRequested specAlloc
    simp only [List.length_cons]
    by_cases hrem : maxD - current ≤ 0
    · rw [if_pos hrem, if_pos hrem]
    · rw [if_neg hrem, if_neg hrem]
      push_cast
      rw [ih (current + min ((maxD - current) / ((rest.length : ℚ) + 1)) 10 - transition)]
      congr 1
      ring_nf

/-- C7: the requested duration sequence of `create_reel`'s allocation loop
is exactly the even-split-with-cap recurrence of the claim — at each step
the remaining budget divided by the number of not-yet-placed segments,
capped at 10 — and consequently no requested segment duration ever exceeds
10. -/
theorem alloc_even_split_capped (maxD transition : ℚ) (srcs : List ℚ) :
    allocRequested maxD transition srcs 0 =
      specAlloc transition 10 srcs.length (maxD - 0) ∧
    ∀ d ∈ allocRequested maxD transition srcs 0, d ≤ 10 := by
  refine ⟨allocRequested_eq_specAlloc maxD transition srcs 0, ?_⟩
  have : ∀ (l : List ℚ) (current : ℚ), ∀ d ∈ allocRequested maxD transition l current,
      d ≤ 10 := by
    intro l
    induction l with
    | nil => intro current d hd; simp [allocRequested] at hd
    | cons src rest ih =>
      intro current d hd
      unfold allocRequested at hd
      by_cases hrem : maxD - current ≤ 0
      · rw [if_pos hrem] at hd
        simp at hd
      · rw [if_neg hrem] at hd
        rcases List.mem_cons.mp hd with heq | hmem
        · exact heq ▸ min_le_right _ _
        · exact ih _ d hmem
  exact this srcs 0

/-- C7 witness: with a 20-unit budget and two segments each step requests
`min(budget/remaining, 10) = 10`, matching the recurrence, and the cap
holds for the first requested duration. -/
theorem alloc_even_split_capped_witness :
    allocRequested 20 0 [5, 5] 0 = specAlloc 0 10 [5, 5].length (20 - 0) ∧
      (10 : ℚ) ≤ 10 := by
  refine ⟨(alloc_even_split_capped 20 0 [5, 5]).1, ?_⟩
  have hm : (10 : ℚ) ∈ allocRequested 20 0 [5, 5] 0 := by
    have : allocRequested 20 0 [5, 5] 0 = [10, 10] := by
      unfold allocRequested
      norm_num [allocRequested, min_def]
    rw [this]
    simp
  exact (alloc_even_split_capped 20 0 [5, 5]).2 10 hm

/-! ### C4: overlays whose floor does not fit -/

/-- C4 counterexample: on a 3-unit timeline the quote overlay's floor
duration no longer fits after the shrink step, yet no `OverlayTooLong`
error exists anywhere in the code: the overlay is scheduled at its 3-unit
floor, running past the timeline end. -/
theorem overlay_floor_overrun_no_error_cex :
    quoteSchedule 3 "hi".toList = (3 / 10, 3) ∧
      (3 : ℚ) < (quoteSchedule 3 "hi".toList).1 + (quoteSchedule 3 "hi".toList).2 := by
  have h1 : (pySplit "hi".toList).length = 1 := by decide
  have h2 : ("hi".toList).length = 2 := by decide
  have h3 : wrapCount 30 "hi".toList = 1 := by decide
  have hq : quoteSchedule 3 "hi".toList = (3 / 10, 3) := by
    simp only [quoteSchedule, calculate_text_duration, h1, h2, h3]
    norm_num [max_def, min_def]
  refine ⟨hq, by rw [hq]; norm_num⟩

/-- C4 amended: an overlay whose floor does not fit is neither dropped nor
rejected: both overlay durations always come out at least the 3-unit floor
(through `calculate_text_duration`'s lower clamp and the shrink step's
`max(3.0, ·)`), even when that makes the overlay overrun the timeline. -/
theorem overlay_duration_floor_kept (t : ℚ) (quoteText benefitText : List Char) :
    3 ≤ (quoteSchedule t quoteText).2 ∧ 3 ≤ (benefitSchedule t benefitText).2 := by
  constructor
  · unfold quoteSchedule
    dsimp only
    split_ifs
    · exact le_max_left 3 _
    · exact le_max_left 3 _
  · unfold benefitSchedule
    dsimp only
    split_ifs
    · exact le_max_left 3 _
    · exact le_max_left 3 _

/-! ### C3: overlay windows within the timeline -/

/-- C3 counterexample: on a 3-unit composed timeline (durations that the
enforcement step produces for the configuration `minDuration = maxDuration
= 3`), the quote overlay starts at 0.3 and keeps its 3-unit floor, so
`start + duration = 3.3` exceeds the timeline end. -/
theorem overlay_overruns_short_timeline_cex :
    composeDuration 3 3 8 = 3 ∧
      (3 : ℚ) <
        (quoteSchedule 3 "hello".toList).1 + (quoteSchedule 3 "hello".toList).2 := by
  constructor
  · unfold composeDuration
    norm_num
  · have h1 : (pySplit "hello".toList).length = 1 := by decide
    have h2 : ("hello".toList).length = 5 := by decide
    have h3 : wrapCount 30 "hello".toList = 1 := by decide
    simp only [quoteSchedule, calculate_text_duration, h1, h2, h3]
    norm_num [max_def, min_def]

/-- C3 amended: on every composed timeline of duration at least 6 units
(which includes every timeline under the default 15–90 bounds), both
overlays satisfy `start + duration ≤ totalDuration`; for shorter timelines
the 3-unit floor wins over the shrink and the overlay can overrun. -/
theorem overlays_fit_within_long_timeline (t : ℚ)
    (quoteText benefitText : List Char) (ht : 6 ≤ t) :
    (quoteSchedule t quoteText).1 + (quoteSchedule t quoteText).2 ≤ t ∧
      (benefitSchedule t benefitText).1 + (benefitSchedule t benefitText).2 ≤ t := by
  constructor
  · unfold quoteSchedule
    dsimp only
    split_ifs with h
    · have hmax : max 3 (t - t * (1 / 10) - 1 / 2) ≤ t - t * (1 / 10) := by
        apply max_le <;> linarith
      linarith
    · linarith [not_lt.mp h]
  · unfold benefitSchedule
    dsimp only
    split_ifs with h
    · have hmax : max 3 (t - t * (1 / 2) - 1 / 2) ≤ t - t * (1 / 2) := by
        apply max_le <;> linarith
      linarith
    · linarith [not_lt.mp h]

/-- C3 witness: at exactly 6 units both overlays fit. -/
theorem overlays_fit_within_long_timeline_witness :
    (6 : ℚ) ≤ 6 ∧
      ((quoteSchedule 6 "q".toList).1 + (quoteSchedule 6 "q".toList).2 ≤ 6 ∧
        (benefitSchedule 6 "b".toList).1 + (benefitSchedule 6 "b".toList).2 ≤ 6) :=
  ⟨le_refl 6, overlays_fit_within_long_timeline 6 "q".toList "b".toList (le_refl 6)⟩

/-! ### C10: the reading-speed duration formula -/

/-- C10 counterexample: for all-whitespace text `textwrap.wrap` yields zero
lines, and the code skips the extra-line term instead of applying
`0.5·(0 − 1)`: on 400 spaces with bounds (3, 10) the code returns 4 while
the claimed closed form returns 3.5. -/
theorem text_duration_whitespace_formula_cex :
    calculate_text_duration (List.replicate 400 ' ') 3 10 = 4 ∧
      claimedTextDuration (List.replicate 400 ' ') 3 10 = 7 / 2 ∧
      calculate_text_duration (List.replicate 400 ' ') 3 10 ≠
        claimedTextDuration (List.replicate 400 ' ') 3 10 := by
  have h1 : (pySplit (List.replicate 400 ' ')).length = 0 := by decide
  have h2 : ((List.replicate 400 ' ' : List Char)).length = 400 := by simp
  have h3 : wrapCount 30 (List.replicate 400 ' ') = 0 := by decide
  have hcode : calculate_text_duration (List.replicate 400 ' ') 3 10 = 4 := by
    simp only [calculate_text_duration, h1, h2, h3]
    norm_num [max_def, min_def]
  have hclaim : claimedTextDuration (List.replicate 400 ' ') 3 10 = 7 / 2 := by
    simp only [claimedTextDuration, h1, h2, h3]
    norm_num [max_def, min_def]
  refine ⟨hcode, hclaim, ?_⟩
  rw [hcode, hclaim]
  norm_num

/-- C10 amended: whenever the text wraps to at least one line the code's
duration equals the claimed closed form
`max(minFloor, min(max(words/2.5, chars/100) + 0.5·(lines − 1), maxCeiling))`
(for all-whitespace text the line term is skipped instead); and whenever
the ceiling is below the floor the floor wins: the result is exactly
`minFloor`, exceeding the requested ceiling. -/
theorem text_duration_formula_amended (text : List Char) (minD maxD : ℚ) :
    (1 ≤ wrapCount 30 text →
      calculate_text_duration text minD maxD = claimedTextDuration text minD maxD) ∧
      (maxD < minD → calculate_text_duration text minD maxD = minD) := by
  constructor
  · intro h
    unfold calculate_text_duration claimedTextDuration
    dsimp only
    rcases eq_or_lt_of_le h with h1 | h1
    · rw [← h1]
      norm_num
    · rw [if_pos h1]
  · intro h
    unfold calculate_text_duration
    dsimp only
    have hle : min (if 1 < wrapCount 30 text then
          max ((((pySplit text).length : ℚ)) / (5 / 2)) (((text.length : ℚ)) / 100) +
            (((wrapCount 30 text : ℚ)) - 1) * (1 / 2)
        else max ((((pySplit text).length : ℚ)) / (5 / 2)) (((text.length : ℚ)) / 100))
        maxD ≤ minD :=
      le_trans (min_le_right _ _) (le_of_lt h)
    exact max_eq_left hle

/-- C10 witness: for the text `"hi"` (one wrapped line) with floor 10 above
ceiling 3, the formula agrees with the code and the returned duration is
the floor 10, above the ceiling. -/
theorem text_duration_formula_amended_witness :
    (1 ≤ wrapCount 30 "hi".toList) ∧
      calculate_text_duration "hi".toList 10 3 =
        claimedTextDuration "hi".toList 10 3 ∧
      calculate_text_duration "hi".toList 10 3 = 10 :=
  ⟨by decide, (text_duration_formula_amended "hi".toList 10 3).1 (by decide),
    (text_duration_formula_amended "hi".toList 10 3).2 (by norm_num)⟩

/-! ### C5: anti-repetition asset selection -/

/-- C5: for a nonempty pool, selection draws from a nonempty candidate
list; unless every pool element is already used, the candidates are exactly
the unused pool elements (so the result is never a used identifier) and
the exhaustion flag is off; when the whole pool is used, the candidates are
the entire pool and the informational exhaustion signal is on. -/
theorem select_unused_spec {α : Type} [DecidableEq α] (pool used : List α)
    (hp : pool ≠ []) :
    ∃ cands flag, selectCandidates pool used = some (cands, flag) ∧
      cands ≠ [] ∧
      (flag = true → cands = pool ∧ ∀ p ∈ pool, p ∈ used) ∧
      (flag = false → cands = pool.filter (fun a => ¬ a ∈ used) ∧
        ∀ x ∈ cands, x ∉ used) := by
  by_cases hu : pool.filter (fun a => ¬ a ∈ used) = []
  · refine ⟨pool, true, ?_, hp, ?_, ?_⟩
    · unfold selectCandidates
      rw [if_neg hp]
      simp only [hu, if_pos]
    · intro _
      refine ⟨rfl, ?_⟩
      intro p hpmem
      by_contra hnotused
      have hmem : p ∈ pool.filter (fun a => ¬ a ∈ used) :=
        List.mem_filter.mpr ⟨hpmem, by simpa using hnotused⟩
      rw [hu] at hmem
      exact (List.not_mem_nil p) hmem
    · intro h
      exact absurd h (by decide)
  · refine ⟨pool.filter (fun a => ¬ a ∈ used), false, ?_, hu, ?_, ?_⟩
    · unfold selectCandidates
      rw [if_neg hp, if_neg hu]
    · intro h
      exact absurd h (by decide)
    · intro _
      refine ⟨rfl, ?_⟩
      intro x hx
      have := (List.mem_filter.mp hx).2
      simpa using this

/-- C5 witness: pool `[1,2,3]` with `1` used selects among `[2,3]` without
the exhaustion signal. -/
theorem select_unused_spec_witness :
    ∃ cands flag, selectCandidates [1, 2, 3] [1] = some (cands, flag) ∧
      cands ≠ [] ∧
      (flag = true → cands = [1, 2, 3] ∧ ∀ p ∈ [1, 2, 3], p ∈ [1]) ∧
      (flag = false → cands = List.filter (fun a => ¬ a ∈ [1]) [1, 2, 3] ∧
        ∀ x ∈ cands, x ∉ [1]) :=
  select_unused_spec [1, 2, 3] [1] (by decide)

example : fitLines wFixed 300 "Kombucha is a fermented tea.".toList =
    ["Kombucha is a fermented tea.".toList] := by decide
example : fitLines wFixed 100 "Kombucha is a fermented tea.".toList =
    ["Kombucha".toList, "is".toList, "a".toList, "fermented".toList,
      "tea.".toList] := by decide
example : fitLines wFixed 300 [] = [] := by decide
example : totalHeight wFixed (fitLines wFixed 300 []) = -10 := by decide
example : fitLines wFixed 1 "Hi".toList = ["H".toList, "i".toList] := by decide

/-! ### C1: fitted line widths -/

/-- C1 counterexample: with a per-character width measure, image width 1080,
padding 40 and maximum text width 1, the single overlong character `H` is
kept as its own line and drawn at width 7 > 1: an emitted line is wider
than the requested maximum. -/
theorem drawn_line_wider_than_limit_cex :
    "H".toList ∈ drawnLines wFixed 1080 40 1 "Hi".toList ∧
      1 < wFixed "H".toList :=
  ⟨by decide, by decide⟩

theorem pySplitAux_wf :
    ∀ (s acc : List Char), (∀ c ∈ acc, pyIsSpace c = false) →
      ∀ w ∈ pySplitAux s acc, WfWord w := by
  intro s
  induction s with
  | nil =>
    intro acc hacc w hw
    unfold pySplitAux at hw
    by_cases h : acc = []
    · rw [if_pos h] at hw
      cases hw
    · rw [if_neg h] at hw
      rcases List.mem_singleton.mp hw with rfl
      refine ⟨by simpa using h, ?_⟩
      intro c hc
      exact hacc c (List.mem_reverse.mp hc)
  | cons c rest ih =>
    intro acc hacc w hw
    unfold pySplitAux at hw
    by_cases hsp : pyIsSpace c
    · rw [if_pos hsp] at hw
      by_cases h : acc = []
      · rw [if_pos h] at hw
        exact ih [] (by intro _ h'; cases h') w hw
      · rw [if_neg h] at hw
        rcases List.mem_cons.mp hw with rfl | hmem
        · refine ⟨by simpa using h, ?_⟩
          intro d hd
          exact hacc d (List.mem_reverse.mp hd)
        · exact ih [] (by intro _ h'; cases h') w hmem
    · rw [if_neg hsp] at hw
      refine ih (c :: acc) ?_ w hw
      intro d hd
      rcases List.mem_cons.mp hd with rfl | hmem
      · simpa using hsp
      · exact hacc d hmem

theorem pySplit_wf (s : List Char) : ∀ w ∈ pySplit s, WfWord w :=
  pySplitAux_wf s [] (by intro _ h; cases h)

theorem joinWords_cons (w : List Char) (ws : List (List Char)) (h : ws ≠ []) :
    joinWords (w :: ws) = w ++ ' ' :: joinWords ws := by
  cases ws with
  | nil => exact absurd rfl h
  | cons v vs => rfl

theorem pySplitAux_word (l acc : List Char) :
    ∀ (w : List Char), (∀ c ∈ w, pyIsSpace c = false) →
      pySplitAux (w ++ l) acc = pySplitAux l (w.reverse ++ acc) := by
  intro w
  induction w generalizing acc with
  | nil => intro _; simp
  | cons c cs ih =>
    intro hw
    have hc : pyIsSpace c = false := hw c (List.mem_cons_self _ _)
    have hcs : ∀ d ∈ cs, pyIsSpace d = false :=
      fun d hd => hw d (List.mem_cons_of_mem _ hd)
    have hstep : pySplitAux (c :: (cs ++ l)) acc = pySplitAux (cs ++ l) (c :: acc) := by
      simp only [pySplitAux, hc]
      simp
    show pySplitAux (c :: (cs ++ l)) acc = pySplitAux l ((c :: cs).reverse ++ acc)
    rw [hstep, ih (c :: acc) hcs]
    have hacc : (c :: cs).reverse ++ acc = cs.reverse ++ c :: acc := by simp
    rw [hacc]

theorem pySplit_joinWords :
    ∀ (ws : List (List Char)), ws ≠ [] → (∀ w ∈ ws, WfWord w) →
      pySplit (joinWords ws) = ws := by
  intro ws
  induction ws with
  | nil => intro h; exact absurd rfl h
  | cons w rest ih =>
    intro _ hwf
    have hw : WfWord w := hwf w (List.mem_cons_self _ _)
    cases rest with
    | nil =>
      show pySplitAux (joinWords [w]) [] = [w]
      have : joinWords [w] = w ++ [] := by simp [joinWords]
      rw [this, pySplitAux_word [] [] w hw.2]
      unfold pySplitAux
      rw [if_neg (by simpa using hw.1)]
      simp
    | cons v vs =>
      have hrest : (v :: vs : List (List Char)) ≠ [] := by simp
      show pySplitAux (joinWords (w :: v :: vs)) [] = w :: v :: vs
      rw [joinWords_cons w (v :: vs) hrest,
        pySplitAux_word (' ' :: joinWords (v :: vs)) [] w hw.2]
      show pySplitAux (' ' :: joinWords (v :: vs)) (w.reverse ++ []) = _
      unfold pySplitAux
      rw [if_pos (by decide), if_neg (by simpa using hw.1)]
      rw [List.append_nil, List.reverse_reverse]
      have := ih hrest (fun u hu => hwf u (List.mem_cons_of_mem _ hu))
      rw [show pySplitAux (joinWords (v :: vs)) [] = pySplit (joinWords (v :: vs)) from rfl,
        this]

theorem le_joinWords_length_head (b : List Char) (rest : List (List Char)) :
    b.length ≤ (joinWords (b :: rest)).length := by
  cases rest with
  | nil => simp [joinWords]
  | cons v vs =>
    rw [joinWords_cons b (v :: vs) (by simp)]
    simp

theorem joinWords_two_words_length (a b : List Char) (rest : List (List Char))
    (ha : WfWord a) (hb : WfWord b) :
    3 ≤ (joinWords (a :: b :: rest)).length := by
  rw [joinWords_cons a (b :: rest) (by simp)]
  have h1 : 1 ≤ a.length := by
    cases a with
    | nil => exact absurd rfl ha.1
    | cons _ _ => simp
  have h2 : 1 ≤ b.length := by
    cases b with
    | nil => exact absurd rfl hb.1
    | cons _ _ => simp
  have h3 := le_joinWords_length_head b rest
  simp only [List.length_append, List.length_cons]
  omega

theorem joinWords_take_drop :
    ∀ (ws : List (List Char)) (k : ℕ), 0 < k → k < ws.length →
      joinWords ws = joinWords (ws.take k) ++ ' ' :: joinWords (ws.drop k) := by
  intro ws
  induction ws with
  | nil => intro k _ hk; simp at hk
  | cons w rest ih =>
    intro k hk0 hklen
    match k with
    | 1 =>
      have hrest : rest ≠ [] := by
        intro h
        rw [h] at hklen
        simp at hklen
      simp only [List.take_succ_cons, List.take_zero, List.drop_succ_cons,
        List.drop_zero]
      rw [joinWords_cons w rest hrest]
      simp [joinWords]
    | k' + 2 =>
      have hrest : rest ≠ [] := by
        intro h
        rw [h] at hklen
        simp at hklen
      have hlen' : k' + 1 < rest.length := by
        simp only [List.length_cons] at hklen
        omega
      have htake : rest.take (k' + 1) ≠ [] := by
        intro h
        have := congrArg List.length h
        simp only [List.length_take, List.length_nil] at this
        omega
      simp only [List.take_succ_cons, List.drop_succ_cons]
      rw [joinWords_cons w rest hrest, ih (k' + 1) (by omega) hlen',
        joinWords_cons w (rest.take (k' + 1)) htake]
      simp

theorem fragOK_lineOK (W : List Char → ℤ) (safe : ℤ) (f : List Char)
    (h : FragOK W safe f) : LineOK W safe f := by
  obtain ⟨hne, hch, hval⟩ := h
  exact ⟨⟨[f], by simp, by intro w hw; rcases List.mem_singleton.mp hw with rfl; exact ⟨hne, hch⟩, rfl⟩, hval⟩

theorem flush_lineOK (W : List Char → ℤ) (safe : ℤ) (cur : List (List Char))
    (h : CurOK W safe cur) (hne : cur ≠ []) : LineOK W safe (joinWords cur) := by
  rcases h with h | ⟨hwf, hval⟩
  · exact absurd h hne
  · refine ⟨⟨cur, hne, hwf, rfl⟩, ?_⟩
    rcases hval with h | ⟨c, rfl⟩
    · exact Or.inl h
    · exact Or.inr (by rfl)

theorem flushed_all_ok (W : List Char → ℤ) (safe : ℤ)
    (wrapped : List (List Char)) (cur : List (List Char))
    (h1 : ∀ l ∈ wrapped, LineOK W safe l) (h2 : CurOK W safe cur) :
    ∀ l ∈ wrapped ++ (if cur = [] then [] else [joinWords cur]),
      LineOK W safe l := by
  intro l hl
  rcases List.mem_append.mp hl with hmem | hmem
  · exact h1 l hmem
  · by_cases hc : cur = []
    · rw [if_pos hc] at hmem
      cases hmem
    · rw [if_neg hc] at hmem
      rcases List.mem_singleton.mp hmem with rfl
      exact flush_lineOK W safe cur h2 hc

theorem charBreakStep_inv (W : List Char → ℤ) (safe : ℤ)
    (st : List (List Char) × List Char) (c : Char)
    (hc : pyIsSpace c = false)
    (h1 : ∀ f ∈ st.1, FragOK W safe f)
    (h2 : st.2 = [] ∨ FragOK W safe st.2) :
    (∀ f ∈ (charBreakStep W safe st c).1, FragOK W safe f) ∧
      ((charBreakStep W safe st c).2 = [] ∨
        FragOK W safe (charBreakStep W safe st c).2) := by
  unfold charBreakStep
  dsimp only
  by_cases hfit : W (st.2 ++ [c]) ≤ safe
  · rw [if_pos hfit]
    refine ⟨h1, Or.inr ⟨by simp, ?_, Or.inl hfit⟩⟩
    intro d hd
    rcases List.mem_append.mp hd with hmem | hmem
    · rcases h2 with h | ⟨_, hch, _⟩
      · rw [h] at hmem
        cases hmem
      · exact hch d hmem
    · rcases List.mem_singleton.mp hmem with rfl
      exact hc
  · rw [if_neg hfit]
    constructor
    · intro f hf
      rcases List.mem_append.mp hf with hmem | hmem
      · exact h1 f hmem
      · by_cases hn : st.2 = []
        · rw [if_pos hn] at hmem
          cases hmem
        · rw [if_neg hn] at hmem
          rcases List.mem_singleton.mp hmem with rfl
          rcases h2 with h | h
          · exact absurd h hn
          · exact h
    · refine Or.inr ⟨by simp, ?_, Or.inr rfl⟩
      intro d hd
      rcases List.mem_singleton.mp hd with rfl
      exact hc

theorem charBreak_inv (W : List Char → ℤ) (safe : ℤ) (word : List Char)
    (hw : ∀ c ∈ word, pyIsSpace c = false) :
    (∀ f ∈ (charBreak W safe word).1, FragOK W safe f) ∧
      ((charBreak W safe word).2 = [] ∨
        FragOK W safe (charBreak W safe word).2) := by
  have haux : ∀ (chars : List Char) (st : List (List Char) × List Char),
      (∀ c ∈ chars, pyIsSpace c = false) →
      (∀ f ∈ st.1, FragOK W safe f) → (st.2 = [] ∨ FragOK W safe st.2) →
      (∀ f ∈ (chars.foldl (charBreakStep W safe) st).1, FragOK W safe f) ∧
        ((chars.foldl (charBreakStep W safe) st).2 = [] ∨
          FragOK W safe (chars.foldl (charBreakStep W safe) st).2) := by
    intro chars
    induction chars with
    | nil => intro st _ h1 h2; exact ⟨h1, h2⟩
    | cons c rest ih =>
      intro st hch h1 h2
      have hc : pyIsSpace c = false := hch c (List.mem_cons_self _ _)
      have hrest : ∀ d ∈ rest, pyIsSpace d = false :=
        fun d hd => hch d (List.mem_cons_of_mem _ hd)
      have hstep := charBreakStep_inv W safe st c hc h1 h2
      exact ih (charBreakStep W safe st c) hrest hstep.1 hstep.2
  exact haux word ([], []) hw (by intro f hf; cases hf) (Or.inl rfl)

theorem processWord_inv (W : List Char → ℤ) (safe : ℤ) (st : WrapSt)
    (word : List Char) (hw : WfWord word) (hst : StOK W safe st) :
    StOK W safe (processWord W safe st word) := by
  obtain ⟨h1, h2⟩ := hst
  have hwr : ∀ l ∈ st.wrapped ++ (if st.current = [] then []
      else [joinWords st.current]), LineOK W safe l :=
    flushed_all_ok W safe st.wrapped st.current h1 h2
  unfold processWord
  dsimp only
  by_cases hfit : W (joinWords (st.current ++ [word])) ≤ safe
  · rw [if_pos hfit]
    refine ⟨h1, Or.inr ⟨?_, Or.inl hfit⟩⟩
    intro w hwmem
    rcases List.mem_append.mp hwmem with hmem | hmem
    · rcases h2 with h | ⟨hwf, _⟩
      · rw [h] at hmem
        cases hmem
      · exact hwf w hmem
    · rcases List.mem_singleton.mp hmem with rfl
      exact hw
  · rw [if_neg hfit, if_neg hw.1]
    by_cases hbig : safe < W word
    · rw [if_pos hbig]
      have hbr := charBreak_inv W safe word hw.2
      constructor
      · intro l hl
        rcases List.mem_append.mp hl with hmem | hmem
        · exact hwr l hmem
        · exact fragOK_lineOK W safe l (hbr.1 l hmem)
      · show CurOK W safe (if (charBreak W safe word).2 = [] then []
          else [(charBreak W safe word).2])
        by_cases hn : (charBreak W safe word).2 = []
        · rw [if_pos hn]
          exact Or.inl rfl
        · rw [if_neg hn]
          rcases hbr.2 with h | ⟨hne2, hch2, hval2⟩
          · exact absurd h hn
          · refine Or.inr ⟨?_, ?_⟩
            · intro w hwmem
              rcases List.mem_singleton.mp hwmem with rfl
              exact ⟨hne2, hch2⟩
            · rcases hval2 with h | h
              · exact Or.inl h
              · rcases List.length_eq_one.mp h with ⟨c, hc⟩
                exact Or.inr ⟨c, by rw [hc]⟩
    · rw [if_neg hbig]
      refine ⟨hwr, Or.inr ⟨?_, Or.inl ?_⟩⟩
      · intro w hwmem
        rcases List.mem_singleton.mp hwmem with rfl
        exact hw
      · show W (joinWords [word]) ≤ safe
        exact not_lt.mp hbig

theorem foldl_processWord_inv (W : List Char → ℤ) (safe : ℤ) :
    ∀ (words : List (List Char)) (st : WrapSt),
      (∀ w ∈ words, WfWord w) → StOK W safe st →
      StOK W safe (words.foldl (processWord W safe) st) := by
  intro words
  induction words with
  | nil => intro st _ hst; exact hst
  | cons w rest ih =>
    intro st hwf hst
    exact ih (processWord W safe st w)
      (fun u hu => hwf u (List.mem_cons_of_mem _ hu))
      (processWord_inv W safe st w (hwf w (List.mem_cons_self _ _)) hst)

theorem processSentence_inv (W : List Char → ℤ) (safe : ℤ)
    (wrapped : List (List Char)) (sentence : List Char)
    (h : ∀ l ∈ wrapped, LineOK W safe l) :
    ∀ l ∈ processSentence W safe wrapped sentence, LineOK W safe l := by
  unfold processSentence
  dsimp only
  by_cases hnil : pySplit sentence = []
  · rw [if_pos hnil]
    exact h
  · rw [if_neg hnil]
    have hres := foldl_processWord_inv W safe (pySplit sentence)
      ⟨wrapped, []⟩ (pySplit_wf sentence) ⟨h, Or.inl rfl⟩
    exact flushed_all_ok W safe _ _ hres.1 hres.2

theorem wrapLines_inv (W : List Char → ℤ) (maxWidth : ℤ) :
    ∀ (sentences acc : List (List Char)),
      (∀ l ∈ acc, LineOK W (maxWidth - 20) l) →
      ∀ l ∈ sentences.foldl (processSentence W (maxWidth - 20)) acc,
        LineOK W (maxWidth - 20) l := by
  intro sentences
  induction sentences with
  | nil => intro acc h; exact h
  | cons s rest ih =>
    intro acc h
    exact ih (processSentence W (maxWidth - 20) acc s)
      (processSentence_inv W (maxWidth - 20) acc s h)

theorem verifyLine_ok (W : List Char → ℤ) (maxWidth : ℤ)
    (hmono : ∀ s t : List Char, W s ≤ W (s ++ t) ∧ W t ≤ W (s ++ t))
    (l : List Char) (hok : LineOK W (maxWidth - 20) l) :
    ∀ l' ∈ verifyLine W maxWidth l, W l' ≤ maxWidth - 20 ∨ l'.length = 1 := by
  intro l' hl'
  unfold verifyLine at hl'
  obtain ⟨⟨ws, hne, hwf, rfl⟩, hval⟩ := hok
  by_cases hwide : maxWidth - 30 < W (joinWords ws)
  · rw [if_pos hwide] at hl'
    dsimp only at hl'
    rw [pySplit_joinWords ws hne hwf] at hl'
    by_cases hsplit : 1 < ws.length
    · rw [if_pos hsplit] at hl'
      left
      have hfit : W (joinWords ws) ≤ maxWidth - 20 := by
        rcases hval with h | h
        · exact h
        · exfalso
          match ws, hsplit with
          | a :: b :: rest, _ =>
            have h3 := joinWords_two_words_length a b rest
              (hwf a (List.mem_cons_self _ _))
              (hwf b (List.mem_cons_of_mem _ (List.mem_cons_self _ _)))
            omega
      have hmid0 : 0 < ws.length / 2 := Nat.div_pos (by omega) (by omega)
      have hmidlt : ws.length / 2 < ws.length := Nat.div_lt_self (by omega) (by omega)
      have hsplit_eq := joinWords_take_drop ws (ws.length / 2) hmid0 hmidlt
      rcases List.mem_cons.mp hl' with rfl | hl''
      · have := (hmono (joinWords (ws.take (ws.length / 2)))
          (' ' :: joinWords (ws.drop (ws.length / 2)))).1
        rw [← hsplit_eq] at this
        exact le_trans this hfit
      · rcases List.mem_singleton.mp hl'' with rfl
        have hassoc : joinWords ws =
            (joinWords (ws.take (ws.length / 2)) ++ [' ']) ++
              joinWords (ws.drop (ws.length / 2)) := by
          rw [hsplit_eq]
          simp
        have := (hmono (joinWords (ws.take (ws.length / 2)) ++ [' '])
          (joinWords (ws.drop (ws.length / 2)))).2
        rw [← hassoc] at this
        exact le_trans this hfit
    · rw [if_neg hsplit] at hl'
      rcases List.mem_singleton.mp hl' with rfl
      exact hval
  · rw [if_neg hwide] at hl'
    rcases List.mem_singleton.mp hl' with rfl
    left
    push_neg at hwide
    omega

/-- C1 amended: under a width measure that is monotone with respect to
appending on either side, every line produced by the text-fitting step
(greedy wrap plus verification) either measures at most `maxWidth - 20`
(the wrap-time safety margin, hence at most `maxWidth` whenever
`maxWidth` is meaningful) or is a single character: an unbreakable
overlong glyph is kept as its own line rather than truncated, and the
draw-time ellipsis truncation does not reserve space for the appended
`"..."`, so the emitted width can exceed the requested maximum. -/
theorem fit_lines_safe_width_or_single_char (W : List Char → ℤ)
    (maxWidth : ℤ) (text : List Char)
    (hmono : ∀ s t : List Char, W s ≤ W (s ++ t) ∧ W t ≤ W (s ++ t)) :
    ∀ l ∈ fitLines W maxWidth text, W l ≤ maxWidth - 20 ∨ l.length = 1 := by
  intro l hl
  unfold fitLines at hl
  rcases List.mem_flatMap.mp hl with ⟨l0, hl0, hmem⟩
  have hok : LineOK W (maxWidth - 20) l0 :=
    wrapLines_inv W maxWidth (splitParts text) []
      (by intro x hx; cases hx) l0 hl0
  exact verifyLine_ok W maxWidth hmono l0 hok l hmem

/-- C1 witness: with the 7px-per-character measure and maximum width 300,
the fitted line of the sample sentence measures 196 ≤ 280. -/
theorem fit_lines_safe_width_or_single_char_witness :
    wFixed "Kombucha is a fermented tea.".toList ≤ 300 - 20 ∨
      ("Kombucha is a fermented tea.".toList).length = 1 :=
  fit_lines_safe_width_or_single_char wFixed 300
    "Kombucha is a fermented tea.".toList
    (fun s t => ⟨by simp only [wFixed, List.length_append]; omega,
      by simp only [wFixed, List.length_append]; omega⟩)
    "Kombucha is a fermented tea.".toList (by decide)
